import Mathlib

/-!
Shallow embedding of the `rsa` package's number-theoretic and codec core
(`rsa/common.py`, `rsa/prime.py`, `rsa/transform.py`) together with proofs
about it.  Python arbitrary-precision integers are modelled as `ℕ`/`ℤ`;
code paths that raise a Python exception are modelled as `Option`-valued
functions returning `none`; the floating-point expression
`int(math.ceil(math.log(number, 2)))` is modelled by its ideal
real-arithmetic value (the ceiling of the base-2 logarithm).
-/

set_option maxRecDepth 8000

namespace Rsa

/-- Loop body of `common.bit_size` (`while number: bits += 1; number >>= 1`):
counts how many right shifts by one are needed to reach zero. -/
def bitsLoop (n : ℕ) : ℕ :=
  if n = 0 then 0 else bitsLoop (n / 2) + 1
termination_by n
decreasing_by exact Nat.div_lt_self (by omega) (by omega)

/-- Ceiling of the base-2 logarithm, the ideal-arithmetic model of
`int(math.ceil(math.log(number, 2)))` used by `transform.bit_size`
(same recursion as `Nat.clog 2`). -/
def clog2 (n : ℕ) : ℕ :=
  if n ≤ 1 then 0 else clog2 ((n + 1) / 2) + 1
termination_by n
decreasing_by omega

namespace Common

/-- rsa/common.py `bit_size`: raises `ValueError` on negative input
(modelled as `none`), returns 1 for 0, and otherwise counts binary digits
by repeated right shift. -/
def bit_size (number : ℤ) : Option ℕ :=
  if number < 0 then none
  else if number = 0 then some 1
  else some (bitsLoop number.toNat)

/-- rsa/common.py `byte_size`: `int(math.ceil(bit_size(number) / 8.0))`. -/
def byte_size (number : ℤ) : Option ℕ :=
  (bit_size number).map fun bits => (bits + 7) / 8

end Common

namespace Transform

/-- rsa/transform.py `bit_size`: raises `ValueError` on negative input,
returns 1 for 0, and otherwise `int(math.ceil(math.log(number, 2)))`,
modelled in ideal arithmetic by `clog2`. -/
def bit_size (number : ℤ) : Option ℕ :=
  if number < 0 then none
  else if number = 0 then some 1
  else some (clog2 number.toNat)

/-- rsa/transform.py `byte_size`: `int(math.ceil(bit_size(number) / 8.0))`. -/
def byte_size (number : ℤ) : Option ℕ :=
  (bit_size number).map fun bits => (bits + 7) / 8

/-- Value of rsa/transform.py `byte_size` on a nonnegative `number`
(the form used inside `int2bytes`, whose inputs are byte-convertible). -/
def byte_size_nat (number : ℕ) : ℕ :=
  ((if number = 0 then 1 else clog2 number) + 7) / 8

/-- rsa/transform.py `bytes2int`: big-endian fold `integer = integer * 256 + byte`.
A byte string or byte list is modelled as a `List ℕ` of byte values. -/
def bytes2int (bytes : List ℕ) : ℕ :=
  bytes.foldl (fun integer byte => integer * 256 + byte) 0

/-- Conversion loop of rsa/transform.py `int2bytes`
(`while number > 0: bytes.insert(0, chr(number & 0xFF)); number >>= 8`):
the minimal big-endian encoding. -/
def int2bytesCore (number : ℕ) : List ℕ :=
  if number = 0 then [] else int2bytesCore (number / 256) ++ [number % 256]
termination_by number
decreasing_by exact Nat.div_lt_self (by omega) (by omega)

/-- rsa/transform.py `int2bytes`: when `block_size` is given, first compares
`byte_size(number)` with the block size (raising `OverflowError`, modelled as
`none`, when larger) and then left-pads the conversion-loop output with
`block_size - needed_bytes` zero bytes. -/
def int2bytes (number : ℕ) (block_size : Option ℕ) : Option (List ℕ) :=
  match block_size with
  | none => some (int2bytesCore number)
  | some bs =>
      let needed_bytes := byte_size_nat number
      if bs < needed_bytes then none
      else some (List.replicate (bs - needed_bytes) 0 ++ int2bytesCore number)

end Transform

/-- rsa/common.py `gcd` (the identical copy in rsa/prime.py is this same
function): `while q != 0: if p < q: (p,q) = (q,p); (p,q) = (q, p % q)`.
When the swap makes the divisor zero (entry with `p = 0`, `q ≠ 0`), the
Python expression `p % q` raises `ZeroDivisionError`, modelled as `none`. -/
def gcd (p q : ℕ) : Option ℕ :=
  if q = 0 then some p
  else if p < q then
    if p = 0 then none else gcd p (q % p)
  else gcd q (p % q)
termination_by p + q
decreasing_by
  · have := Nat.mod_lt q (show 0 < p by omega); omega
  · have := Nat.mod_lt p (show 0 < q by omega); omega

/-- Loop of rsa/common.py `extended_gcd`, state `(a, b, x, y, lx, ly)`:
`while b != 0: q = a // b; (a,b) = (b, a % b); (x,lx) = (lx - q*x, x);
(y,ly) = (ly - q*y, y)`; returns `(a, lx, ly)`. -/
def egcdLoop (a b : ℕ) (x y lx ly : ℤ) : ℕ × ℤ × ℤ :=
  if b = 0 then (a, lx, ly)
  else egcdLoop b (a % b) (lx - (a / b : ℕ) * x) (ly - (a / b : ℕ) * y) x y
termination_by b
decreasing_by exact Nat.mod_lt a (by omega)

/-- rsa/common.py `extended_gcd`: runs the loop from `x = 0, y = 1,
lx = 1, ly = 0` and then adds the original `b` (resp. `a`) to a negative
`lx` (resp. `ly`) before returning. -/
def extended_gcd (a b : ℕ) : ℕ × ℤ × ℤ :=
  let r := egcdLoop a b 0 1 1 0
  let lx := if r.2.1 < 0 then r.2.1 + b else r.2.1
  let ly := if r.2.2 < 0 then r.2.2 + a else r.2.2
  (r.1, lx, ly)

/-- Standard recursive extended Euclidean algorithm, used as a proof-friendly
reformulation of `egcdLoop` (the two are proved equal below). -/
def egRec (a b : ℕ) : ℕ × ℤ × ℤ :=
  if b = 0 then (a, 1, 0)
  else
    let r := egRec b (a % b)
    (r.1, r.2.2, r.2.1 - (a / b : ℕ) * r.2.2)
termination_by b
decreasing_by exact Nat.mod_lt a (by omega)

/-- rsa/common.py `inverse`: `(divider, inv, _) = extended_gcd(x, n)`;
raises `ValueError` ("not relatively prime", modelled as `none`) when
`divider != 1`, otherwise returns `inv`. -/
def inverse (x n : ℕ) : Option ℤ :=
  let r := extended_gcd x n
  if r.1 ≠ 1 then none else some r.2.1

/-- Accumulation loop of rsa/common.py `crt` over the zipped
`(modulo_values, a_values)` pairs: `x += a_i * M_i * inv` where
`M_i = m // m_i` and `inv = inverse(M_i, m_i)`. -/
def crtLoop (m : ℕ) : List (ℕ × ℕ) → ℤ → Option ℤ
  | [], x => some x
  | (m_i, a_i) :: rest, x =>
      match inverse (m / m_i) m_i with
      | none => none
      | some inv => crtLoop m rest (x + a_i * ((m / m_i : ℕ) : ℤ) * inv)

/-- rsa/common.py `crt`: `m` is the product of the moduli (computed by the
first loop), then the accumulation loop runs and the result is `x % m`. -/
def crt (a_values modulo_values : List ℕ) : Option ℤ :=
  let m := modulo_values.foldl (fun acc modulo => acc * modulo) 1
  (crtLoop m (modulo_values.zip a_values) 0).map fun x => x % (m : ℤ)

/-- rsa/prime.py `jacobi`: binary Jacobi-symbol loop on `(a, b)` with `b`
odd and positive (the function's documented domain; `b ≥ 1` keeps the
truncated subtractions below equal to Python's). -/
def jacobi (a b : ℕ) : ℤ :=
  if a = 0 then 0
  else if a = 1 then 1
  else if a % 2 = 1 then
    (if ((a - 1) * (b - 1) / 4) % 2 = 1 then -1 else 1) * jacobi (b % a) a
  else
    (if ((b * b - 1) / 8) % 2 = 1 then -1 else 1) * jacobi (a / 2) b
termination_by a
decreasing_by
  · exact Nat.mod_lt b (by omega)
  · omega

/-- rsa/prime.py `jacobi_witness`: compares `jacobi(x, n) % n` (Python `%`
on a positive modulus is `Int.emod`) with `pow(x, (n - 1) // 2, n)`;
returns `True` (a compositeness witness) exactly on mismatch. -/
def jacobi_witness (x n : ℕ) : Bool :=
  let j : ℤ := jacobi x n % (n : ℤ)
  let f : ℤ := ((x ^ ((n - 1) / 2) % n : ℕ) : ℤ)
  if j = f then false else true

/-- rsa/prime.py `randomized_primality_testing`: `k` trials, each drawing a
random witness; returns `False` as soon as some drawn witness reports
compositeness.  The stream of drawn values is made explicit as `draw`. -/
def randomized_primality_testing (n k : ℕ) (draw : ℕ → ℕ) : Bool :=
  (List.range k).all fun t => ! jacobi_witness (draw t) n

/-- rsa/prime.py `is_prime`: the 6-trial randomized test. -/
def is_prime (number : ℕ) (draw : ℕ → ℕ) : Bool :=
  randomized_primality_testing number 6 draw

/-- Modelled from the spec: `rsa.randnum.randint` (module absent from the
source tree) draws each trial witness `x` in `[1, n - 1]`. -/
def randint_draws (n : ℕ) (draw : ℕ → ℕ) : Prop :=
  ∀ t, 1 ≤ draw t ∧ draw t ≤ n - 1

/-- Modelled from the spec: `rsa.randnum.read_random_int` (module absent
from the source tree) draws a random integer of exactly `nbits` bits with
the top bit forced set. -/
def read_random_int_draws (nbits : ℕ) (cand : ℕ → ℕ) : Prop :=
  ∀ t, 2 ^ (nbits - 1) ≤ cand t ∧ cand t < 2 ^ nbits

/-- Retry loop of rsa/prime.py `getprime`: attempt `t` draws `cand t`,
forces the low bit (`integer |= 1`) and returns the integer when the
6-trial test (with witness stream `draws t`) accepts.  The unbounded
`while True` is modelled with explicit fuel. -/
def getprimeLoop (cand : ℕ → ℕ) (draws : ℕ → ℕ → ℕ) : ℕ → ℕ → Option ℕ
  | _, 0 => none
  | t, fuel + 1 =>
      let integer := cand t ||| 1
      if is_prime integer (draws t) then some integer
      else getprimeLoop cand draws (t + 1) fuel

/-- rsa/prime.py `getprime`: runs the retry loop from attempt 0.  `nbits`
only influences the candidate stream (via `read_random_int`). -/
def getprime (nbits : ℕ) (cand : ℕ → ℕ) (draws : ℕ → ℕ → ℕ) (fuel : ℕ) :
    Option ℕ :=
  getprimeLoop cand draws 0 fuel

/-! ### Characterizations of the two bit-length computations -/

theorem bitsLoop_zero : bitsLoop 0 = 0 := by
  rw [bitsLoop]
  norm_num

theorem bitsLoop_char : ∀ n, 0 < n →
    1 ≤ bitsLoop n ∧ 2 ^ (bitsLoop n - 1) ≤ n ∧ n < 2 ^ bitsLoop n := by
  intro n
  induction n using Nat.strong_induction_on with
  | _ n IH =>
    intro hn
    rw [bitsLoop, if_neg (by omega)]
    simp only [Nat.add_sub_cancel]
    by_cases h1 : n = 1
    · subst h1
      norm_num [bitsLoop_zero]
    · have h2 : 2 ≤ n := by omega
      obtain ⟨ha, hb, hc⟩ := IH (n / 2) (by omega) (by omega)
      have e1 : 2 ^ bitsLoop (n / 2) = 2 * 2 ^ (bitsLoop (n / 2) - 1) := by
        conv_lhs => rw [show bitsLoop (n / 2) = bitsLoop (n / 2) - 1 + 1 by omega]
        ring
      have e2 : 2 ^ (bitsLoop (n / 2) + 1) = 2 * 2 ^ bitsLoop (n / 2) := by ring
      omega

theorem bitsLoop_eq (n k : ℕ) (h1 : 1 ≤ k) (h2 : 2 ^ (k - 1) ≤ n)
    (h3 : n < 2 ^ k) : bitsLoop n = k := by
  have hn : 0 < n := lt_of_lt_of_le (Nat.pos_pow_of_pos _ (by norm_num)) h2
  obtain ⟨ha, hb, hc⟩ := bitsLoop_char n hn
  have h4 := (Nat.pow_lt_pow_iff_right (by norm_num : 1 < 2)).mp
    (lt_of_le_of_lt hb h3)
  have h5 := (Nat.pow_lt_pow_iff_right (by norm_num : 1 < 2)).mp
    (lt_of_le_of_lt h2 hc)
  omega

theorem clog2_eq_clog : ∀ n, clog2 n = Nat.clog 2 n := by
  intro n
  induction n using Nat.strong_induction_on with
  | _ n IH =>
    by_cases h : n ≤ 1
    · rw [clog2, if_pos h, Nat.clog_of_right_le_one h]
    · rw [clog2, if_neg h, Nat.clog_of_two_le (by norm_num) (by omega),
        IH ((n + 1) / 2) (by omega)]
      norm_num

theorem clog2_le_pow (n : ℕ) : n ≤ 2 ^ clog2 n := by
  rw [clog2_eq_clog]
  exact Nat.le_pow_clog (by norm_num) n

theorem pow_pred_clog2_lt (n : ℕ) (h : 2 ≤ n) : 2 ^ (clog2 n - 1) < n := by
  rw [clog2_eq_clog]
  exact Nat.pow_pred_clog_lt_self (by norm_num) (by omega)

theorem clog2_two_pow (k : ℕ) : clog2 (2 ^ k) = k := by
  rw [clog2_eq_clog]
  exact Nat.clog_pow 2 k (by norm_num)

theorem clog2_eq (n k : ℕ) (h1 : 1 ≤ k) (h2 : 2 ^ (k - 1) < n)
    (h3 : n ≤ 2 ^ k) : clog2 n = k := by
  have hn : 2 ≤ n := by
    have : (1 : ℕ) ≤ 2 ^ (k - 1) := Nat.pos_pow_of_pos _ (by norm_num)
    omega
  have hpos : 1 ≤ clog2 n := by
    rw [clog2_eq_clog]; exact Nat.clog_pos (by norm_num) hn
  have h4 := (Nat.pow_lt_pow_iff_right (by norm_num : 1 < 2)).mp
    (lt_of_lt_of_le h2 (clog2_le_pow n))
  have h5 := (Nat.pow_lt_pow_iff_right (by norm_num : 1 < 2)).mp
    (lt_of_lt_of_le (pow_pred_clog2_lt n hn) h3)
  omega

/-- For a positive number that is not a power of two, the ceiling-log model
of transform.bit_size agrees with the shift-count of common.bit_size. -/
theorem clog2_eq_bitsLoop_of_not_pow (n : ℕ) (hn : 0 < n)
    (h : ¬ ∃ k, n = 2 ^ k) : clog2 n = bitsLoop n := by
  obtain ⟨ha, hb, hc⟩ := bitsLoop_char n hn
  refine clog2_eq n (bitsLoop n) ha ?_ (by omega)
  rcases Nat.lt_or_ge (2 ^ (bitsLoop n - 1)) n with h1 | h1
  · exact h1
  · exact absurd ⟨bitsLoop n - 1, by omega⟩ h

/-- On the power `2 ^ k` the ceiling-log model returns `k` while the
shift count returns `k + 1`. -/
theorem clog2_bitsLoop_at_pow (k : ℕ) :
    clog2 (2 ^ k) = k ∧ bitsLoop (2 ^ k) = k + 1 := by
  refine ⟨clog2_two_pow k, bitsLoop_eq _ _ (by omega) (by norm_num) ?_⟩
  have : 2 ^ (k + 1) = 2 * 2 ^ k := by ring
  have : 1 ≤ 2 ^ k := Nat.pos_pow_of_pos _ (by norm_num)
  omega

/-! ### Codec round trip (int2bytes without padding, bytes2int) -/

theorem int2bytesCore_zero : Transform.int2bytesCore 0 = [] := by
  rw [Transform.int2bytesCore]
  norm_num

theorem bytes2int_foldl : ∀ n acc : ℕ,
    (Transform.int2bytesCore n).foldl
      (fun integer byte => integer * 256 + byte) acc =
      acc * 256 ^ (Transform.int2bytesCore n).length + n := by
  intro n
  induction n using Nat.strong_induction_on with
  | _ n IH =>
    intro acc
    by_cases h : n = 0
    · subst h
      simp [int2bytesCore_zero]
    · rw [Transform.int2bytesCore, if_neg h, List.foldl_append,
        IH (n / 256) (Nat.div_lt_self (by omega) (by omega)) acc]
      simp only [List.foldl_cons, List.foldl_nil, List.length_append,
        List.length_cons, List.length_nil]
      have := Nat.div_add_mod n 256
      ring_nf
      omega

/-- C9: for every nonnegative integer, `int2bytes` without a block size
returns the minimal big-endian encoding and `bytes2int` decodes it back;
0 encodes to the empty byte sequence, which decodes to 0. -/
theorem bytes2int_int2bytes_roundtrip (n : ℕ) :
    Transform.int2bytes n none = some (Transform.int2bytesCore n) ∧
    Transform.bytes2int (Transform.int2bytesCore n) = n ∧
    Transform.int2bytes 0 none = some [] ∧
    Transform.bytes2int [] = 0 := by
  refine ⟨rfl, ?_, by rw [Transform.int2bytes, int2bytesCore_zero], rfl⟩
  have := bytes2int_foldl n 0
  simpa [Transform.bytes2int] using this

/-! ### The transform.bit_size defect and its consequences -/

/-- C4: transform.bit_size computes the ceiling of the base-2 logarithm,
which is not the bit length: on 1024 it returns 10 although 11 binary
digits are required (and common.bit_size returns 11), and on 1 it returns
0; negative inputs do raise the claimed error. -/
theorem transform_bit_size_is_not_bit_length :
    Transform.bit_size 1024 = some 10 ∧ Transform.bit_size 1 = some 0 ∧
    Common.bit_size 1024 = some 11 ∧
    (2 : ℕ) ^ 10 ≤ 1024 ∧ 1024 < (2 : ℕ) ^ 11 ∧
    Transform.bit_size (-3) = none ∧ Transform.byte_size (-3) = none := by
  have h10 : clog2 1024 = 10 := by
    have := clog2_two_pow 10
    norm_num at this
    exact this
  have h11 : bitsLoop 1024 = 11 := by
    refine bitsLoop_eq _ _ (by norm_num) (by norm_num) (by norm_num)
  have h1 : clog2 1 = 0 := by
    rw [clog2]
    norm_num
  refine ⟨?_, ?_, ?_, by norm_num, by norm_num, ?_, ?_⟩
  · rw [Transform.bit_size, if_neg (by norm_num), if_neg (by norm_num)]
    show some (clog2 1024) = some 10
    rw [h10]
  · rw [Transform.bit_size, if_neg (by norm_num), if_neg (by norm_num)]
    show some (clog2 1) = some 0
    rw [h1]
  · rw [Common.bit_size, if_neg (by norm_num), if_neg (by norm_num)]
    show some (bitsLoop 1024) = some 11
    rw [h11]
  · rw [Transform.bit_size, if_pos (by norm_num)]
  · rw [Transform.byte_size, Transform.bit_size, if_pos (by norm_num)]
    rfl

/-- C3: with `number = 256` and `block_size = 1` the minimal encoding is
two bytes long, so the documented Overflow error should be raised; instead
the defective byte_size computes 1 needed byte, no error is raised, and a
2-byte block is returned (of the wrong length). -/
theorem int2bytes_overflow_unchecked :
    Transform.int2bytes 256 (some 1) = some [1, 0] ∧
    (Transform.int2bytesCore 256).length = 2 ∧
    Transform.bytes2int [1, 0] = 256 := by
  have hcore : Transform.int2bytesCore 256 = [1, 0] := by
    rw [Transform.int2bytesCore, if_neg (by norm_num)]
    norm_num
    rw [Transform.int2bytesCore, if_neg (by norm_num)]
    norm_num [int2bytesCore_zero]
  have hbs : Transform.byte_size_nat 256 = 1 := by
    rw [Transform.byte_size_nat, if_neg (by norm_num)]
    have := clog2_two_pow 8
    norm_num at this
    rw [this]
  refine ⟨?_, by rw [hcore]; rfl, by decide⟩
  rw [Transform.int2bytes]
  simp only [hbs, hcore]
  norm_num

/-! ### Agreement and disagreement of the two bit_size functions -/

theorem transform_bit_size_natCast (n : ℕ) (hn : 0 < n) :
    Transform.bit_size (n : ℤ) = some (clog2 n) := by
  rw [Transform.bit_size, if_neg (by omega), if_neg (by exact_mod_cast hn.ne.symm)]
  norm_num

theorem common_bit_size_natCast (n : ℕ) (hn : 0 < n) :
    Common.bit_size (n : ℤ) = some (bitsLoop n) := by
  rw [Common.bit_size, if_neg (by omega), if_neg (by exact_mod_cast hn.ne.symm)]
  norm_num

/-- C10 counterexample: on input 1 the two bit_size functions disagree
(transform computes ceil(log2 1) = 0, common counts one binary digit). -/
theorem bit_size_functions_disagree_at_one :
    Transform.bit_size 1 = some 0 ∧ Common.bit_size 1 = some 1 ∧
    Transform.bit_size 1 ≠ Common.bit_size 1 := by
  have h0 : clog2 1 = 0 := by rw [clog2]; norm_num
  have h1 : bitsLoop 1 = 1 := by rw [bitsLoop]; norm_num [bitsLoop_zero]
  have ht : Transform.bit_size 1 = some 0 := by
    have := transform_bit_size_natCast 1 (by norm_num)
    rw [h0] at this
    exact_mod_cast this
  have hc : Common.bit_size 1 = some 1 := by
    have := common_bit_size_natCast 1 (by norm_num)
    rw [h1] at this
    exact_mod_cast this
  refine ⟨ht, hc, ?_⟩
  rw [ht, hc]
  simp

/-- C10 (amended): the transform and common bit_size functions agree on a
nonnegative input exactly when it is not a power of two (on `2 ^ k`
transform returns `k`, one less than common's `k + 1`); consequently the
byte_size functions agree exactly on inputs that are not of the form
`2 ^ (8 * k)`. -/
theorem bit_size_refinement (n : ℕ) :
    (Transform.bit_size (n : ℤ) = Common.bit_size (n : ℤ) ↔ ¬ ∃ k, n = 2 ^ k) ∧
    (Transform.byte_size (n : ℤ) = Common.byte_size (n : ℤ) ↔
      ¬ ∃ k, n = 2 ^ (8 * k)) := by
  by_cases hn : n = 0
  · subst hn
    have h1 : ∀ k, (0 : ℕ) ≠ 2 ^ k := fun k h => by
      have : 0 < 2 ^ k := Nat.pos_pow_of_pos _ (by norm_num)
      omega
    constructor
    · simp only [Nat.cast_zero, Transform.bit_size, Common.bit_size]
      norm_num
      intro k h
      exact h1 k h
    · simp only [Nat.cast_zero, Transform.byte_size, Common.byte_size,
        Transform.bit_size, Common.bit_size]
      norm_num
      intro k h
      exact h1 (8 * k) h
  · have hpos : 0 < n := by omega
    have ht := transform_bit_size_natCast n hpos
    have hc := common_bit_size_natCast n hpos
    have hbit : (Transform.bit_size (n : ℤ) = Common.bit_size (n : ℤ)) ↔
        clog2 n = bitsLoop n := by
      rw [ht, hc]
      simp
    have hbyte : (Transform.byte_size (n : ℤ) = Common.byte_size (n : ℤ)) ↔
        (clog2 n + 7) / 8 = (bitsLoop n + 7) / 8 := by
      rw [Transform.byte_size, Common.byte_size, ht, hc]
      simp
    by_cases hpow : ∃ k, n = 2 ^ k
    · obtain ⟨k, rfl⟩ := hpow
      obtain ⟨e1, e2⟩ := clog2_bitsLoop_at_pow k
      have hinj : ∀ j, (2 : ℕ) ^ k = 2 ^ (8 * j) ↔ k = 8 * j := fun j =>
        ⟨fun h => Nat.pow_right_injective (by norm_num) h, fun h => by rw [h]⟩
      constructor
      · rw [hbit, e1, e2]
        simp only [iff_false_intro (by omega : ¬ k = k + 1), false_iff]
        intro h
        exact h ⟨k, rfl⟩
      · rw [hbyte, e1, e2]
        constructor
        · intro h ⟨j, hj⟩
          have := (hinj j).mp hj
          omega
        · intro h
          have h8 : ¬ ∃ j, k = 8 * j := fun ⟨j, hj⟩ => h ⟨j, (hinj j).mpr hj⟩
          have : k % 8 ≠ 0 := fun hmod => h8 ⟨k / 8, by omega⟩
          omega
    · have heq := clog2_eq_bitsLoop_of_not_pow n hpos hpow
      constructor
      · rw [hbit]
        exact iff_of_true heq hpow
      · rw [hbyte, heq]
        refine iff_of_true rfl ?_
        rintro ⟨j, hj⟩
        exact hpow ⟨8 * j, hj⟩

/-! ### The Euclidean gcd loop -/

theorem gcd_eq_aux : ∀ N p q, p + q ≤ N → (0 < p ∨ q = 0) →
    gcd p q = some (Nat.gcd p q) := by
  intro N
  induction N with
  | zero =>
    intro p q h _
    have hp : p = 0 := by omega
    have hq : q = 0 := by omega
    subst hp; subst hq
    rw [gcd, if_pos rfl, Nat.gcd_zero_left]
  | succ N IH =>
    intro p q hN hpq
    rw [gcd]
    by_cases hq : q = 0
    · subst hq
      rw [if_pos rfl, Nat.gcd_zero_right]
    · rw [if_neg hq]
      have hp : 0 < p := by omega
      by_cases hlt : p < q
      · rw [if_pos hlt, if_neg (by omega)]
        have h1 : q % p < p := Nat.mod_lt q hp
        rw [IH p (q % p) (by omega) (Or.inl hp)]
        rw [Nat.gcd_comm p (q % p), ← Nat.gcd_rec p q]
      · rw [if_neg hlt]
        have h1 : p % q < q := Nat.mod_lt p (by omega)
        rw [IH q (p % q) (by omega) (Or.inl (by omega))]
        rw [Nat.gcd_comm q (p % q), ← Nat.gcd_rec q p, Nat.gcd_comm q p]

/-- C2 (amended): on nonnegative operands with `p > 0` or `q = 0` the gcd
loop terminates without an arithmetic fault and returns the greatest
common divisor, including `gcd(p, 0) = p` and `gcd(0, 0) = 0`; when
`p = 0` and `q ≠ 0` the swap makes the divisor of `%` zero (see the
counterexample). -/
theorem gcd_ok :
    (∀ p q : ℕ, (0 < p ∨ q = 0) → gcd p q = some (Nat.gcd p q)) ∧
    (∀ p : ℕ, gcd p 0 = some p) ∧ gcd 0 0 = some 0 := by
  refine ⟨fun p q h => gcd_eq_aux (p + q) p q le_rfl h, fun p => ?_, ?_⟩
  · rw [gcd, if_pos rfl]
  · rw [gcd, if_pos rfl]

/-- C2 witness: the in-range application `gcd 48 180` (also the source's
doctest) computed through the loop model. -/
theorem gcd_ok_witness : gcd 48 180 = some 12 := by
  have h := gcd_ok.1 48 180 (Or.inl (by norm_num))
  rw [h]
  norm_num

/-- C2 counterexample: `gcd(0, 5)` swaps the operands and then evaluates
`5 % 0`, a `ZeroDivisionError`, instead of returning 5. -/
theorem gcd_zero_left_faults : gcd 0 5 = none := by
  rw [gcd]
  norm_num

/-! ### The extended Euclidean algorithm -/

theorem egRec_spec : ∀ b a : ℕ,
    (egRec a b).1 = Nat.gcd a b ∧
    (egRec a b).2.1 * a + (egRec a b).2.2 * b = ((egRec a b).1 : ℤ) ∧
    |(egRec a b).2.1| ≤ max 1 (b : ℤ) ∧
    |(egRec a b).2.2| ≤ max 1 (a : ℤ) ∧
    -(b : ℤ) ≤ (egRec a b).2.1 ∧ -(a : ℤ) ≤ (egRec a b).2.2 := by
  intro b
  induction b using Nat.strong_induction_on with
  | _ b IH =>
    intro a
    by_cases hb : b = 0
    · subst hb
      have ha : egRec a 0 = (a, 1, 0) := by rw [egRec]; simp
      rw [ha]
      refine ⟨by simp, by push_cast; ring, ?_, ?_, ?_, ?_⟩
      · show |(1 : ℤ)| ≤ max 1 ((0 : ℕ) : ℤ)
        rw [abs_one]
        exact le_max_left _ _
      · show |(0 : ℤ)| ≤ max 1 (a : ℤ)
        rw [abs_zero]
        exact le_trans zero_le_one (le_max_left _ _)
      · show -((0 : ℕ) : ℤ) ≤ 1
        norm_num
      · show -(a : ℤ) ≤ 0
        omega
    · have hb1 : 1 ≤ b := by omega
      have hmod : a % b < b := Nat.mod_lt a (by omega)
      obtain ⟨ih1, ih2, ih3, ih4, ih5, ih6⟩ := IH (a % b) hmod b
      rcases hre : egRec b (a % b) with ⟨g, σ, τ⟩
      rw [hre] at ih1 ih2 ih3 ih4 ih5 ih6
      simp only at ih1 ih2 ih3 ih4 ih5 ih6
      have hstep : egRec a b = (g, τ, σ - ((a / b : ℕ) : ℤ) * τ) := by
        rw [egRec, if_neg hb, hre]
      have hdm : (b : ℤ) * ((a / b : ℕ) : ℤ) + ((a % b : ℕ) : ℤ) = (a : ℤ) := by
        exact_mod_cast Nat.div_add_mod a b
      have hgcd : Nat.gcd b (a % b) = Nat.gcd a b := by
        rw [Nat.gcd_comm b (a % b), ← Nat.gcd_rec b a, Nat.gcd_comm b a]
      rw [hstep]
      simp only
      have hmaxb : max 1 (b : ℤ) = (b : ℤ) := max_eq_right (by exact_mod_cast hb1)
      by_cases hr : a % b = 0
      · rw [hr] at hre
        have hzero : egRec b 0 = (b, 1, 0) := by rw [egRec]; simp
        rw [hzero] at hre
        simp only [Prod.mk.injEq] at hre
        obtain ⟨rfl, rfl, rfl⟩ := hre
        refine ⟨?_, by push_cast; ring, ?_, ?_, by omega, ?_⟩
        · rw [← hgcd, hr, Nat.gcd_zero_right]
        · rw [abs_zero]
          exact le_trans zero_le_one (le_max_left _ _)
        · simp only [mul_zero, sub_zero, abs_one]
          exact le_max_left _ _
        · simp only [mul_zero, sub_zero]
          omega
      · have hr1 : 1 ≤ a % b := by omega
        have ha1 : 1 ≤ a := le_trans hr1 (Nat.mod_le a b)
        have hmaxa : max 1 (a : ℤ) = (a : ℤ) := max_eq_right (by exact_mod_cast ha1)
        have hmaxr : max 1 ((a % b : ℕ) : ℤ) = ((a % b : ℕ) : ℤ) :=
          max_eq_right (by exact_mod_cast hr1)
        rw [hmaxr] at ih3
        rw [hmaxb] at ih4
        have hq0 : (0 : ℤ) ≤ ((a / b : ℕ) : ℤ) := by positivity
        have habs : |σ - ((a / b : ℕ) : ℤ) * τ| ≤ (a : ℤ) := by
          calc |σ - ((a / b : ℕ) : ℤ) * τ|
              ≤ |σ| + |((a / b : ℕ) : ℤ) * τ| := abs_sub _ _
            _ = |σ| + ((a / b : ℕ) : ℤ) * |τ| := by
                rw [abs_mul, abs_of_nonneg hq0]
            _ ≤ ((a % b : ℕ) : ℤ) + ((a / b : ℕ) : ℤ) * (b : ℤ) :=
                add_le_add ih3 (mul_le_mul_of_nonneg_left ih4 hq0)
            _ = (a : ℤ) := by linarith [hdm]
        refine ⟨by rw [← hgcd, ih1], ?_, ?_, ?_, ?_, ?_⟩
        · linear_combination ih2 - τ * hdm
        · rw [hmaxb]; exact ih4
        · rw [hmaxa]; exact habs
        · exact (abs_le.mp ih4).1
        · exact (abs_le.mp habs).1

theorem egcdLoop_eq_egRec : ∀ b a : ℕ, ∀ x y lx ly : ℤ,
    egcdLoop a b x y lx ly =
      ((egRec a b).1, (egRec a b).2.1 * lx + (egRec a b).2.2 * x,
        (egRec a b).2.1 * ly + (egRec a b).2.2 * y) := by
  intro b
  induction b using Nat.strong_induction_on with
  | _ b IH =>
    intro a x y lx ly
    by_cases hb : b = 0
    · subst hb
      have ha : egRec a 0 = (a, 1, 0) := by rw [egRec]; simp
      rw [egcdLoop, if_pos rfl, ha]
      simp
    · have hmod : a % b < b := Nat.mod_lt a (by omega)
      rw [egcdLoop, if_neg hb,
        IH (a % b) hmod b (lx - ((a / b : ℕ) : ℤ) * x) (ly - ((a / b : ℕ) : ℤ) * y) x y]
      rcases hre : egRec b (a % b) with ⟨g, σ, τ⟩
      have hstep : egRec a b = (g, τ, σ - ((a / b : ℕ) : ℤ) * τ) := by
        rw [egRec, if_neg hb, hre]
      rw [hstep]
      simp only [Prod.mk.injEq]
      refine ⟨trivial, by ring, by ring⟩

theorem extended_gcd_eq (a b : ℕ) :
    extended_gcd a b =
      ((egRec a b).1,
        if (egRec a b).2.1 < 0 then (egRec a b).2.1 + b else (egRec a b).2.1,
        if (egRec a b).2.2 < 0 then (egRec a b).2.2 + a else (egRec a b).2.2) := by
  rw [extended_gcd, egcdLoop_eq_egRec b a 0 1 1 0]
  simp

/-- C8 (amended): extended_gcd(a, b) returns a triple (r, i, j) with
r = gcd(a, b) and i, j nonnegative, and the Bezout combination i*a + j*b
is congruent to r modulo a*b (the final normalization can add a*b to it,
so plain equality fails; see the counterexample). -/
theorem extended_gcd_spec (a b : ℕ) :
    (extended_gcd a b).1 = Nat.gcd a b ∧
    0 ≤ (extended_gcd a b).2.1 ∧ 0 ≤ (extended_gcd a b).2.2 ∧
    Int.ModEq (a * b)
      ((extended_gcd a b).2.1 * a + (extended_gcd a b).2.2 * b)
      (Nat.gcd a b) := by
  obtain ⟨h1, h2, _, _, h5, h6⟩ := egRec_spec b a
  rw [extended_gcd_eq]
  rcases hre : egRec a b with ⟨g, σ, τ⟩
  rw [hre] at h1 h2 h5 h6
  simp only at h1 h2 h5 h6 ⊢
  rw [h1] at h2
  refine ⟨h1, ?_, ?_, ?_⟩
  · split_ifs with h <;> omega
  · split_ifs with h <;> omega
  · split_ifs with hσ hτ hτ
    · exact Int.modEq_iff_dvd.mpr ⟨-2, by linear_combination -h2⟩
    · exact Int.modEq_iff_dvd.mpr ⟨-1, by linear_combination -h2⟩
    · exact Int.modEq_iff_dvd.mpr ⟨-1, by linear_combination -h2⟩
    · exact Int.modEq_iff_dvd.mpr ⟨0, by linear_combination -h2⟩

theorem extended_gcd_74 : extended_gcd 7 4 = (1, 3, 2) := by
  have h : egcdLoop 7 4 0 1 1 0 = (1, -1, 2) := by
    rw [egcdLoop]; norm_num
    rw [egcdLoop]; norm_num
    rw [egcdLoop]; norm_num
    rw [egcdLoop]; norm_num
  rw [extended_gcd, h]
  norm_num

/-- C8 counterexample: `extended_gcd(7, 4)` returns `(1, 3, 2)`, whose
normalized coefficients give `3*7 + 2*4 = 29`, not the gcd 1, so
`r = i*a + j*b` fails as an equality. -/
theorem extended_gcd_identity_fails :
    extended_gcd 7 4 = (1, 3, 2) ∧ ¬ ((1 : ℤ) = 3 * 7 + 2 * 4) :=
  ⟨extended_gcd_74, by norm_num⟩

/-! ### Modular inverse -/

theorem inverse_74 : inverse 7 4 = some 3 := by
  rw [inverse, extended_gcd_74]
  norm_num

theorem inverse_char (x n : ℕ) :
    (inverse x n = none ↔ Nat.gcd x n ≠ 1) ∧
    ∀ v, inverse x n = some v → 0 ≤ v ∧ Int.ModEq n (v * x) 1 := by
  obtain ⟨h1, h2, _, _, h5, h6⟩ := egRec_spec n x
  rcases hre : egRec x n with ⟨g, σ, τ⟩
  rw [hre] at h1 h2 h5 h6
  simp only at h1 h2 h5 h6
  have hx : extended_gcd x n =
      (g, if σ < 0 then σ + n else σ, if τ < 0 then τ + x else τ) := by
    rw [extended_gcd_eq, hre]
  constructor
  · rw [inverse, hx]
    simp only [h1]
    by_cases hg : Nat.gcd x n = 1
    · simp [hg]
    · simp [hg]
  · intro v hv
    rw [inverse, hx] at hv
    simp only at hv
    by_cases hg : g = 1
    · rw [if_neg (by simp [hg])] at hv
      have hveq : (if σ < 0 then σ + (n : ℤ) else σ) = v := by
        exact Option.some_inj.mp hv
      have hσx : σ * x + τ * n = 1 := by
        rw [hg] at h2
        simpa using h2
      subst hveq
      constructor
      · split_ifs with hσ <;> omega
      · split_ifs with hσ
        · exact Int.modEq_iff_dvd.mpr ⟨τ - x, by linear_combination -hσx⟩
        · exact Int.modEq_iff_dvd.mpr ⟨τ, by linear_combination -hσx⟩
    · rw [if_pos (by simp [hg])] at hv
      cases hv

theorem inverse_of_coprime (x n : ℕ) (h : Nat.gcd x n = 1) :
    ∃ v, inverse x n = some v ∧ 0 ≤ v ∧ Int.ModEq n (v * x) 1 := by
  rcases hinv : inverse x n with _ | v
  · exact absurd ((inverse_char x n).1.mp hinv) (by simp [h])
  · obtain ⟨h0, hm⟩ := (inverse_char x n).2 v hinv
    exact ⟨v, rfl, h0, hm⟩

/-- C7 (amended): inverse(x, n) raises NotCoprime exactly when
gcd(x, n) ≠ 1; otherwise it returns a nonnegative v with v*x ≡ 1 (mod n)
(which for n ≥ 2 is the same as (v*x) mod n = 1, but not for n = 1, see
the counterexample); in particular inverse(7, 4) = 3. -/
theorem inverse_spec :
    (∀ x n : ℕ,
      (inverse x n = none ↔ Nat.gcd x n ≠ 1) ∧
      ∀ v, inverse x n = some v → 0 ≤ v ∧ Int.ModEq n (v * x) 1) ∧
    inverse 7 4 = some 3 :=
  ⟨inverse_char, inverse_74⟩

/-- C7 witness: the coprime pair (7, 4) with the returned inverse 3,
nonnegative and satisfying 3 * 7 ≡ 1 (mod 4). -/
theorem inverse_spec_witness : 0 ≤ (3 : ℤ) ∧ Int.ModEq 4 ((3 : ℤ) * 7) 1 :=
  (inverse_spec.1 7 4).2 3 inverse_spec.2

/-- C7 counterexample: x = 1, n = 1 are coprime positive integers, yet the
returned inverse 0 satisfies (0 * 1) mod 1 = 0, not 1. -/
theorem inverse_residue_fails_at_one :
    inverse 1 1 = some 0 ∧ ¬ ((0 * 1 : ℤ) % 1 = 1) := by
  constructor
  · have h : egcdLoop 1 1 0 1 1 0 = (1, 0, 1) := by
      rw [egcdLoop]; norm_num
      rw [egcdLoop]; norm_num
    rw [inverse, extended_gcd, h]
    norm_num
  · norm_num

/-! ### Prime generation -/

theorem or_one (c : ℕ) : c ||| 1 = 2 * (c / 2) + 1 := by
  have h1 : (c ||| 1) % 2 = 1 := Nat.or_mod_two_eq_one.mpr (Or.inr (by norm_num))
  have h2 : (c ||| 1) / 2 = c / 2 := by
    rw [Nat.or_div_two]
    norm_num
  have h3 := Nat.div_add_mod (c ||| 1) 2
  omega

theorem getprimeLoop_spec (cand : ℕ → ℕ) (draws : ℕ → ℕ → ℕ) :
    ∀ fuel t0 p, getprimeLoop cand draws t0 fuel = some p →
      ∃ t, t0 ≤ t ∧ p = cand t ||| 1 ∧
        is_prime (cand t ||| 1) (draws t) = true ∧
        ∀ s, t0 ≤ s → s < t → is_prime (cand s ||| 1) (draws s) = false := by
  intro fuel
  induction fuel with
  | zero =>
    intro t0 p h
    simp [getprimeLoop] at h
  | succ fuel IH =>
    intro t0 p h
    simp only [getprimeLoop] at h
    by_cases hp : is_prime (cand t0 ||| 1) (draws t0) = true
    · rw [if_pos hp] at h
      refine ⟨t0, le_rfl, (Option.some_inj.mp h).symm, hp, fun s hs1 hs2 => ?_⟩
      omega
    · rw [if_neg hp] at h
      obtain ⟨t, ht1, ht2, ht3, ht4⟩ := IH (t0 + 1) p h
      refine ⟨t, by omega, ht2, ht3, fun s hs1 hs2 => ?_⟩
      by_cases hs0 : s = t0
      · subst hs0
        exact Bool.not_eq_true _ |>.mp hp |>.symm ▸ rfl
      · exact ht4 s (by omega) hs2

theorem bit_size_of_range (p nbits : ℕ) (h1 : 1 ≤ nbits)
    (h2 : 2 ^ (nbits - 1) ≤ p) (h3 : p < 2 ^ nbits) :
    Common.bit_size (p : ℤ) = some nbits := by
  have hp : 0 < p := lt_of_lt_of_le (Nat.pos_pow_of_pos _ (by norm_num)) h2
  rw [common_bit_size_natCast p hp, bitsLoop_eq p nbits h1 h2 h3]

/-- C5: whenever the random-integer provider yields candidates with the
top bit of the requested width set (as the spec describes), every integer
returned by getprime is odd, has bit length exactly nbits, and is the
first drawn candidate (low bit forced) that passes the 6-trial test. -/
theorem getprime_spec (nbits : ℕ) (cand : ℕ → ℕ) (draws : ℕ → ℕ → ℕ)
    (fuel p : ℕ) (hbits : 0 < nbits)
    (hcand : read_random_int_draws nbits cand)
    (h : getprime nbits cand draws fuel = some p) :
    p % 2 = 1 ∧ Common.bit_size (p : ℤ) = some nbits ∧
    ∃ t, p = cand t ||| 1 ∧ is_prime (cand t ||| 1) (draws t) = true ∧
      ∀ s < t, is_prime (cand s ||| 1) (draws s) = false := by
  rw [getprime] at h
  obtain ⟨t, _, hpe, hprime, hmin⟩ := getprimeLoop_spec cand draws fuel 0 p h
  obtain ⟨hlo, hhi⟩ := hcand t
  have hor := or_one (cand t)
  have hdm := Nat.div_add_mod (cand t) 2
  have hpow : 2 ^ nbits = 2 * 2 ^ (nbits - 1) := by
    conv_lhs => rw [show nbits = nbits - 1 + 1 by omega]
    ring
  refine ⟨by rw [hpe, hor]; omega, ?_,
    ⟨t, hpe, hprime, fun s hs => hmin s (by omega) hs⟩⟩
  rw [hpe]
  refine bit_size_of_range _ _ (by omega) (by rw [hor]; omega)
    (by rw [hor]; omega)

/-- C5 witness: with 3-bit candidates all equal to 5 and all trial
witnesses equal to 1, getprime returns 5 on the first attempt. -/
theorem getprime_spec_witness :
    (5 : ℕ) % 2 = 1 ∧ Common.bit_size ((5 : ℕ) : ℤ) = some 3 ∧
    ∃ t, (5 : ℕ) = (fun _ : ℕ => 5) t ||| 1 ∧
      is_prime ((fun _ : ℕ => 5) t ||| 1) ((fun _ _ : ℕ => 1) t) = true ∧
      ∀ s < t, is_prime ((fun _ : ℕ => 5) s ||| 1) ((fun _ _ : ℕ => 1) s) = false := by
  have h51 : (5 : ℕ) ||| 1 = 5 := by rw [or_one]
  have hj : jacobi 1 5 = 1 := by rw [jacobi]; norm_num
  have hw : jacobi_witness 1 5 = false := by
    rw [jacobi_witness]
    simp only [hj]
    norm_num
  have hprime : is_prime 5 (fun _ : ℕ => 1) = true := by
    rw [is_prime, randomized_primality_testing]
    simp [hw]
  refine getprime_spec 3 (fun _ => 5) (fun _ _ => 1) 1 5 (by norm_num)
    (fun t => ⟨by norm_num, by norm_num⟩) ?_
  rw [getprime]
  simp only [getprimeLoop, h51, hprime]
  norm_num

/-! ### Chinese remaindering -/

theorem coprime_list_prod_left (c : ℕ) : ∀ l : List ℕ,
    (∀ x ∈ l, Nat.Coprime x c) → Nat.Coprime l.prod c := by
  intro l
  induction l with
  | nil => intro _; simp [Nat.Coprime]
  | cons x l IH =>
    intro h
    rw [List.prod_cons]
    exact Nat.Coprime.mul (h x (by simp))
      (IH fun y hy => h y (by simp [hy]))

theorem coprime_list_prod_right (c : ℕ) (l : List ℕ)
    (h : ∀ x ∈ l, Nat.Coprime c x) : Nat.Coprime c l.prod :=
  (coprime_list_prod_left c l fun x hx => (h x hx).symm).symm

theorem prod_split (ms : List ℕ) (i : ℕ) (hi : i < ms.length) :
    ms.prod = (ms.take i).prod * (ms.get ⟨i, hi⟩ * (ms.drop (i + 1)).prod) := by
  conv_lhs => rw [← List.take_append_drop i ms]
  rw [List.prod_append, List.drop_eq_getElem_cons hi, List.prod_cons]
  simp [List.get_eq_getElem]

theorem prod_div_get (ms : List ℕ) (hpos : ∀ mo ∈ ms, 0 < mo) (i : ℕ)
    (hi : i < ms.length) :
    ms.prod / ms.get ⟨i, hi⟩ = (ms.take i).prod * (ms.drop (i + 1)).prod := by
  have hg : 0 < ms.get ⟨i, hi⟩ := hpos _ (List.get_mem ms i hi)
  rw [prod_split ms i hi,
    show (ms.take i).prod * (ms.get ⟨i, hi⟩ * (ms.drop (i + 1)).prod) =
      ms.get ⟨i, hi⟩ * ((ms.take i).prod * (ms.drop (i + 1)).prod) from by ring]
  exact Nat.mul_div_cancel_left _ hg

theorem get_dvd_prod_div (ms : List ℕ) (hpos : ∀ mo ∈ ms, 0 < mo) {i j : ℕ}
    (hi : i < ms.length) (hj : j < ms.length) (hne : i ≠ j) :
    ms.get ⟨i, hi⟩ ∣ ms.prod / ms.get ⟨j, hj⟩ := by
  rw [prod_div_get ms hpos j hj]
  rcases Nat.lt_or_ge i j with h | h
  · have hmem := List.getElem_mem
      (show i < (ms.take j).length by rw [List.length_take]; omega)
    rw [List.getElem_take] at hmem
    rw [List.get_eq_getElem]
    exact (List.dvd_prod hmem).mul_right _
  · have h' : j < i := by omega
    obtain ⟨k, rfl⟩ : ∃ k, i = j + 1 + k := ⟨i - (j + 1), by omega⟩
    have hlt : k < (ms.drop (j + 1)).length := by
      rw [List.length_drop]; omega
    have hmem := List.getElem_mem hlt
    rw [List.getElem_drop] at hmem
    rw [List.get_eq_getElem]
    exact Dvd.dvd.mul_left (List.dvd_prod hmem) _

theorem gcd_prod_div_coprime (ms : List ℕ) (hpos : ∀ mo ∈ ms, 0 < mo)
    (hcop : ms.Pairwise Nat.Coprime) (i : ℕ) (hi : i < ms.length) :
    Nat.gcd (ms.prod / ms.get ⟨i, hi⟩) (ms.get ⟨i, hi⟩) = 1 := by
  rw [prod_div_get ms hpos i hi]
  refine Nat.Coprime.mul ?_ ?_
  · refine coprime_list_prod_left _ _ fun x hx => ?_
    obtain ⟨k, hk, rfl⟩ := List.mem_iff_getElem.mp hx
    have hki : k < i := by rw [List.length_take] at hk; omega
    rw [List.getElem_take]
    have hp := List.pairwise_iff_get.mp hcop ⟨k, by omega⟩ ⟨i, hi⟩ hki
    simpa [List.get_eq_getElem] using hp
  · refine coprime_list_prod_left _ _ fun x hx => ?_
    obtain ⟨k, hk, rfl⟩ := List.mem_iff_getElem.mp hx
    have hlen : i + 1 + k < ms.length := by rw [List.length_drop] at hk; omega
    rw [List.getElem_drop]
    have hp := List.pairwise_iff_get.mp hcop ⟨i, hi⟩ ⟨i + 1 + k, hlen⟩ (by
      simp only [Fin.mk_lt_mk]; omega)
    exact Nat.Coprime.symm (by simpa [List.get_eq_getElem] using hp)

theorem pairwise_coprime_dvd : ∀ ms : List ℕ, ms.Pairwise Nat.Coprime →
    ∀ z : ℤ, (∀ i (h : i < ms.length), ((ms.get ⟨i, h⟩ : ℕ) : ℤ) ∣ z) →
    ((ms.prod : ℕ) : ℤ) ∣ z := by
  intro ms
  induction ms with
  | nil => intro _ z _; simp
  | cons mi rest IH =>
    intro hcop z hdvd
    rw [List.pairwise_cons] at hcop
    have h0 : ((mi : ℕ) : ℤ) ∣ z := hdvd 0 (by simp)
    have hrest : ((rest.prod : ℕ) : ℤ) ∣ z := by
      refine IH hcop.2 z fun i hi => ?_
      have := hdvd (i + 1) (by simp only [List.length_cons]; omega)
      simpa [List.get_eq_getElem] using this
    have hcp : Nat.Coprime mi rest.prod :=
      coprime_list_prod_right mi rest hcop.1
    have hmul := (Nat.isCoprime_iff_coprime.mpr hcp).mul_dvd h0 hrest
    rw [List.prod_cons]
    push_cast at hmul ⊢
    exact hmul

theorem crtLoop_congr (m d : ℕ) : ∀ (ps : List (ℕ × ℕ)) (x y : ℤ),
    crtLoop m ps x = some y →
    (∀ p ∈ ps, (d : ℤ) ∣ ((m / p.1 : ℕ) : ℤ)) →
    Int.ModEq d y x := by
  intro ps
  induction ps with
  | nil =>
    intro x y h _
    simp only [crtLoop] at h
    rw [Option.some_inj.mp h]
  | cons p rest IH =>
    rcases p with ⟨mi, ai⟩
    intro x y h hdvd
    simp only [crtLoop] at h
    rcases hinv : inverse (m / mi) mi with _ | v
    · simp [hinv] at h
    · simp only [hinv] at h
      have hstep := IH _ y h fun q hq => hdvd q (List.mem_cons_of_mem _ hq)
      have hd : (d : ℤ) ∣ ((m / mi : ℕ) : ℤ) := hdvd (mi, ai) (List.mem_cons_self _ _)
      have hterm : Int.ModEq d ((ai : ℤ) * ((m / mi : ℕ) : ℤ) * v) 0 :=
        Int.modEq_zero_iff_dvd.mpr ((hd.mul_left ai).mul_right v)
      refine hstep.trans ?_
      simpa using Int.ModEq.add_left x hterm

theorem crt_loop_main (m : ℕ) : ∀ (ms as : List ℕ) (x : ℤ),
    as.length = ms.length →
    (∀ i (hm : i < ms.length),
      Nat.gcd (m / ms.get ⟨i, hm⟩) (ms.get ⟨i, hm⟩) = 1) →
    ∃ y, crtLoop m (ms.zip as) x = some y ∧
      ∀ i (hm : i < ms.length) (ha : i < as.length),
        (∀ j (hj : j < ms.length), j ≠ i →
          ((ms.get ⟨i, hm⟩ : ℕ) : ℤ) ∣ ((m / ms.get ⟨j, hj⟩ : ℕ) : ℤ)) →
        Int.ModEq (ms.get ⟨i, hm⟩) y (x + (as.get ⟨i, ha⟩ : ℤ)) := by
  intro ms
  induction ms with
  | nil =>
    intro as x _ _
    exact ⟨x, by simp [crtLoop], fun i hm => absurd hm (by simp)⟩
  | cons mi rest IH =>
    intro as x hlen hgcd
    rcases as with _ | ⟨ai, arest⟩
    · simp at hlen
    · have hg0 : Nat.gcd (m / mi) mi = 1 := by
        have := hgcd 0 (by simp)
        simpa using this
      obtain ⟨v, hv, hv0, hvmod⟩ := inverse_of_coprime (m / mi) mi hg0
      have hlen' : arest.length = rest.length := by simpa using hlen
      have hgcd' : ∀ i (hm : i < rest.length),
          Nat.gcd (m / rest.get ⟨i, hm⟩) (rest.get ⟨i, hm⟩) = 1 := by
        intro i hm
        have := hgcd (i + 1) (by simp only [List.length_cons]; omega)
        simpa using this
      obtain ⟨y, hy, hcong⟩ :=
        IH arest (x + (ai : ℤ) * ((m / mi : ℕ) : ℤ) * v) hlen' hgcd'
      refine ⟨y, ?_, ?_⟩
      · simp only [List.zip_cons_cons, crtLoop, hv]
        exact hy
      · intro i hm ha hdiv
        rcases i with _ | i
        · simp only [List.get_eq_getElem, List.getElem_cons_zero]
          have hdvd_rest : ∀ p ∈ rest.zip arest,
              (mi : ℤ) ∣ ((m / p.1 : ℕ) : ℤ) := by
            intro p hp
            obtain ⟨hp1, _⟩ := List.of_mem_zip hp
            obtain ⟨k, hk, hpe⟩ := List.mem_iff_getElem.mp hp1
            have := hdiv (k + 1) (by simp only [List.length_cons]; omega)
              (by omega)
            rw [← hpe]
            simpa using this
          have h1 := crtLoop_congr m mi _ _ y hy hdvd_rest
          have h2 : Int.ModEq mi ((ai : ℤ) * ((m / mi : ℕ) : ℤ) * v) ai := by
            have hm1 : ((m / mi : ℕ) : ℤ) * v ≡ 1 [ZMOD (mi : ℤ)] := by
              rw [mul_comm]
              exact hvmod
            have := Int.ModEq.mul_left (ai : ℤ) hm1
            simpa [mul_assoc] using this
          have h0 := h1.trans (Int.ModEq.add_left x h2)
          simpa using h0
        · simp only [List.get_eq_getElem, List.getElem_cons_succ]
          have hm' : i < rest.length := by
            simp only [List.length_cons] at hm; omega
          have ha' : i < arest.length := by
            simp only [List.length_cons] at ha; omega
          have hdiv' : ∀ j (hj : j < rest.length), j ≠ i →
              ((rest.get ⟨i, hm'⟩ : ℕ) : ℤ) ∣ ((m / rest.get ⟨j, hj⟩ : ℕ) : ℤ) := by
            intro j hj hne
            have := hdiv (j + 1) (by simp only [List.length_cons]; omega)
              (by omega)
            simpa using this
          have hc := hcong i hm' ha' hdiv'
          have hd0 := hdiv 0 (by simp) (by omega)
          simp only [List.get_eq_getElem, List.getElem_cons_succ,
            List.getElem_cons_zero] at hc hd0
          have hterm : Int.ModEq (rest.get ⟨i, hm'⟩)
              ((ai : ℤ) * ((m / mi : ℕ) : ℤ) * v) 0 :=
            Int.modEq_zero_iff_dvd.mpr ((hd0.mul_left ai).mul_right v)
          simp only [List.get_eq_getElem] at hterm
          refine hc.trans ?_
          have := Int.ModEq.add_right ((arest.get ⟨i, ha'⟩ : ℕ) : ℤ)
            (Int.ModEq.add_left x hterm)
          simp only [List.get_eq_getElem] at this
          simpa [add_assoc] using this

/-- C6: on pairwise coprime positive moduli with as many residues as
moduli, crt returns the unique value in the interval from 0 to the product
of the moduli that is congruent to each residue modulo its modulus; in
particular crt([2,3],[3,5]) = 8 and crt([2,3,2],[3,5,7]) = 23. -/
theorem crt_spec :
    (∀ (a_values modulo_values : List ℕ),
      a_values.length = modulo_values.length →
      (∀ mo ∈ modulo_values, 0 < mo) →
      modulo_values.Pairwise Nat.Coprime →
      ∃ x : ℤ, crt a_values modulo_values = some x ∧
        0 ≤ x ∧ x < ((modulo_values.prod : ℕ) : ℤ) ∧
        (∀ i (hm : i < modulo_values.length) (ha : i < a_values.length),
          Int.ModEq (modulo_values.get ⟨i, hm⟩) x (a_values.get ⟨i, ha⟩)) ∧
        ∀ y : ℤ, 0 ≤ y → y < ((modulo_values.prod : ℕ) : ℤ) →
          (∀ i (hm : i < modulo_values.length) (ha : i < a_values.length),
            Int.ModEq (modulo_values.get ⟨i, hm⟩) y (a_values.get ⟨i, ha⟩)) →
          y = x) ∧
    crt [2, 3] [3, 5] = some 8 ∧ crt [2, 3, 2] [3, 5, 7] = some 23 := by
  have main : ∀ (as ms : List ℕ),
      as.length = ms.length → (∀ mo ∈ ms, 0 < mo) →
      ms.Pairwise Nat.Coprime →
      ∃ x : ℤ, crt as ms = some x ∧
        0 ≤ x ∧ x < ((ms.prod : ℕ) : ℤ) ∧
        (∀ i (hm : i < ms.length) (ha : i < as.length),
          Int.ModEq (ms.get ⟨i, hm⟩) x (as.get ⟨i, ha⟩)) ∧
        ∀ y : ℤ, 0 ≤ y → y < ((ms.prod : ℕ) : ℤ) →
          (∀ i (hm : i < ms.length) (ha : i < as.length),
            Int.ModEq (ms.get ⟨i, hm⟩) y (as.get ⟨i, ha⟩)) →
          y = x := by
    intro as ms hlen hpos hcop
    have hfold : ms.foldl (fun acc modulo => acc * modulo) 1 = ms.prod :=
      List.prod_eq_foldl.symm
    have hM0 : 0 < ms.prod := List.prod_pos hpos
    have hMz : ((ms.prod : ℕ) : ℤ) ≠ 0 := by exact_mod_cast hM0.ne.symm
    have hgcd : ∀ i (hm : i < ms.length),
        Nat.gcd (ms.prod / ms.get ⟨i, hm⟩) (ms.get ⟨i, hm⟩) = 1 :=
      fun i hm => gcd_prod_div_coprime ms hpos hcop i hm
    obtain ⟨y, hy, hcong⟩ := crt_loop_main ms.prod ms as 0 hlen hgcd
    have hcrt : crt as ms = some (y % ((ms.prod : ℕ) : ℤ)) := by
      simp only [crt, hfold, hy]
      rfl
    have hcongx : ∀ i (hm : i < ms.length) (ha : i < as.length),
        Int.ModEq (ms.get ⟨i, hm⟩) (y % ((ms.prod : ℕ) : ℤ)) (as.get ⟨i, ha⟩) := by
      intro i hm ha
      have hc := hcong i hm ha fun j hj hne =>
        Int.natCast_dvd_natCast.mpr (get_dvd_prod_div ms hpos hm hj (Ne.symm hne))
      have hdM : ((ms.get ⟨i, hm⟩ : ℕ) : ℤ) ∣ ((ms.prod : ℕ) : ℤ) :=
        Int.natCast_dvd_natCast.mpr (List.dvd_prod (List.get_mem ms i hm))
      have h1 : Int.ModEq (ms.get ⟨i, hm⟩) (y % ((ms.prod : ℕ) : ℤ)) y :=
        Int.ModEq.of_dvd hdM (Int.emod_emod_of_dvd y (dvd_refl _))
      exact h1.trans (by simpa using hc)
    refine ⟨y % ((ms.prod : ℕ) : ℤ), hcrt, Int.emod_nonneg y hMz,
      Int.emod_lt_of_pos y (by exact_mod_cast hM0), hcongx, ?_⟩
    intro z hz0 hzM hzc
    have hdvd : ∀ i (h : i < ms.length),
        ((ms.get ⟨i, h⟩ : ℕ) : ℤ) ∣ (y % ((ms.prod : ℕ) : ℤ) - z) := by
      intro i h
      have ha : i < as.length := by omega
      have e1 := hcongx i h ha
      have e2 := hzc i h ha
      exact Int.modEq_iff_dvd.mp (e2.trans e1.symm)
    have hMdvd := pairwise_coprime_dvd ms hcop _ hdvd
    have h0 : 0 ≤ y % ((ms.prod : ℕ) : ℤ) := Int.emod_nonneg y hMz
    have h1 : y % ((ms.prod : ℕ) : ℤ) < ((ms.prod : ℕ) : ℤ) :=
      Int.emod_lt_of_pos y (by exact_mod_cast hM0)
    have habs : |y % ((ms.prod : ℕ) : ℤ) - z| < ((ms.prod : ℕ) : ℤ) := by
      rw [abs_lt]
      omega
    have := Int.eq_zero_of_abs_lt_dvd hMdvd habs
    omega
  have hpair2 : ([3, 5] : List ℕ).Pairwise Nat.Coprime := by
    refine List.Pairwise.cons ?_ (List.pairwise_singleton _ _)
    intro b hb
    simp only [List.mem_singleton] at hb
    subst hb
    decide
  have hpair3 : ([3, 5, 7] : List ℕ).Pairwise Nat.Coprime := by
    refine List.Pairwise.cons ?_ (List.Pairwise.cons ?_ (List.pairwise_singleton _ _))
    · intro b hb
      simp only [List.mem_cons, List.not_mem_nil, or_false] at hb
      rcases hb with rfl | rfl
      · decide
      · decide
    · intro b hb
      simp only [List.mem_singleton] at hb
      subst hb
      decide
  refine ⟨main, ?_, ?_⟩
  · obtain ⟨x, hcrt, h0, hlt, hcong, huniq⟩ :=
      main [2, 3] [3, 5] rfl (by norm_num) hpair2
    have h8 : (8 : ℤ) = x := by
      refine huniq 8 (by norm_num) (by norm_num) ?_
      intro i hm ha
      simp only [List.length_cons, List.length_nil] at hm
      interval_cases i <;>
        simp only [List.get_eq_getElem, List.getElem_cons_zero,
          List.getElem_cons_succ] <;> decide
    rw [hcrt, ← h8]
  · obtain ⟨x, hcrt, h0, hlt, hcong, huniq⟩ :=
      main [2, 3, 2] [3, 5, 7] rfl (by norm_num) hpair3
    have h23 : (23 : ℤ) = x := by
      refine huniq 23 (by norm_num) (by norm_num) ?_
      intro i hm ha
      simp only [List.length_cons, List.length_nil] at hm
      interval_cases i <;>
        simp only [List.get_eq_getElem, List.getElem_cons_zero,
          List.getElem_cons_succ] <;> decide
    rw [hcrt, ← h23]

/-- C6 witness: the general correctness statement applied to the concrete
in-range instance a = [2, 3], m = [3, 5]. -/
theorem crt_spec_witness :
    ∃ x : ℤ, crt [2, 3] [3, 5] = some x ∧
      0 ≤ x ∧ x < ((([3, 5] : List ℕ).prod : ℕ) : ℤ) ∧
      (∀ i (hm : i < ([3, 5] : List ℕ).length)
        (ha : i < ([2, 3] : List ℕ).length),
        Int.ModEq (([3, 5] : List ℕ).get ⟨i, hm⟩) x
          (([2, 3] : List ℕ).get ⟨i, ha⟩)) ∧
      ∀ y : ℤ, 0 ≤ y → y < ((([3, 5] : List ℕ).prod : ℕ) : ℤ) →
        (∀ i (hm : i < ([3, 5] : List ℕ).length)
          (ha : i < ([2, 3] : List ℕ).length),
          Int.ModEq (([3, 5] : List ℕ).get ⟨i, hm⟩) y
            (([2, 3] : List ℕ).get ⟨i, ha⟩)) →
        y = x := by
  refine crt_spec.1 [2, 3] [3, 5] rfl (by norm_num) ?_
  refine List.Pairwise.cons ?_ (List.pairwise_singleton _ _)
  intro b hb
  simp only [List.mem_singleton] at hb
  subst hb
  decide

/-! ### The Jacobi symbol and the Solovay-Strassen test on primes -/

theorem sq_sub_one_div_eight_odd (b : ℕ) (hb : b % 2 = 1) :
    ((b * b - 1) / 8) % 2 = 1 ↔ (b % 8 = 3 ∨ b % 8 = 5) := by
  obtain ⟨k, r, hr8, rfl⟩ : ∃ k r, r < 8 ∧ b = 8 * k + r :=
    ⟨b / 8, b % 8, Nat.mod_lt _ (by norm_num), by omega⟩
  have hr2 : r % 2 = 1 := by omega
  have hsq : (8 * k + r) * (8 * k + r) =
      64 * (k * k) + 16 * (k * r) + r * r := by ring
  have hmod : (8 * k + r) % 8 = r % 8 := by omega
  rw [hsq, hmod]
  obtain ⟨K, hK⟩ : ∃ K, k * k = K := ⟨_, rfl⟩
  rw [hK]
  interval_cases r <;> omega

theorem jacobi_eq_jacobiSym : ∀ a b : ℕ, b % 2 = 1 → 1 < b →
    jacobi a b = jacobiSym a b := by
  intro a
  induction a using Nat.strong_induction_on with
  | _ a IH =>
    intro b hb2 hb1
    by_cases h0 : a = 0
    · subst h0
      rw [jacobi, if_pos rfl, Nat.cast_zero]
      exact (jacobiSym.zero_left hb1).symm
    by_cases h1 : a = 1
    · subst h1
      rw [jacobi, if_neg (by omega), if_pos rfl, Nat.cast_one]
      exact (jacobiSym.one_left b).symm
    by_cases hodd : a % 2 = 1
    · have ha3 : 3 ≤ a := by omega
      rw [jacobi, if_neg h0, if_neg h1, if_pos hodd,
        IH (b % a) (Nat.mod_lt b (by omega)) a hodd (by omega)]
      have hmodl : jacobiSym ((b % a : ℕ) : ℤ) a = jacobiSym (b : ℤ) a := by
        rw [show ((b % a : ℕ) : ℤ) = (b : ℤ) % ((a : ℕ) : ℤ) from by push_cast; ring]
        exact (jacobiSym.mod_left (b : ℤ) a).symm
      rw [hmodl,
        jacobiSym.quadratic_reciprocity (Nat.odd_iff.mpr hodd) (Nat.odd_iff.mpr hb2)]
      congr 1
      have hprod : (a - 1) * (b - 1) / 4 = a / 2 * (b / 2) := by
        have h2a : a - 1 = 2 * (a / 2) := by omega
        have h2b : b - 1 = 2 * (b / 2) := by omega
        rw [h2a, h2b, show 2 * (a / 2) * (2 * (b / 2)) = 4 * (a / 2 * (b / 2)) from by ring]
        exact Nat.mul_div_cancel_left _ (by norm_num)
      rw [hprod]
      by_cases hp : a / 2 * (b / 2) % 2 = 1
      · rw [if_pos hp, Odd.neg_one_pow (Nat.odd_iff.mpr hp)]
      · rw [if_neg hp, Even.neg_one_pow (Nat.even_iff.mpr (by omega))]
    · have hev : a % 2 = 0 := by omega
      rw [jacobi, if_neg h0, if_neg h1, if_neg hodd,
        IH (a / 2) (by omega) b hb2 hb1]
      have hcast : ((a : ℕ) : ℤ) = 2 * ((a / 2 : ℕ) : ℤ) := by
        exact_mod_cast show a = 2 * (a / 2) from by omega
      rw [hcast, jacobiSym.mul_left, jacobiSym.at_two (Nat.odd_iff.mpr hb2),
        ZMod.χ₈_nat_eq_if_mod_eight, if_neg (show ¬ b % 2 = 0 from by omega)]
      have hpar := sq_sub_one_div_eight_odd b hb2
      by_cases h35 : b % 8 = 3 ∨ b % 8 = 5
      · rw [if_pos (hpar.mpr h35),
          if_neg (show ¬ (b % 8 = 1 ∨ b % 8 = 7) from by omega)]
      · have hnot : ¬ ((b * b - 1) / 8) % 2 = 1 := fun hc => h35 (hpar.mp hc)
        rw [if_neg hnot, if_pos (show b % 8 = 1 ∨ b % 8 = 7 from by omega)]

theorem jacobi_prime_mod (n : ℕ) (hp : n.Prime) (h2 : n % 2 = 1) (x : ℕ) :
    jacobi x n % (n : ℤ) = ((x ^ ((n - 1) / 2) % n : ℕ) : ℤ) := by
  haveI : Fact n.Prime := ⟨hp⟩
  have hn3 : 3 ≤ n := by
    have := hp.two_le
    rcases Nat.lt_or_ge n 3 with h | h
    · interval_cases n <;> omega
    · exact h
  have hj : jacobi x n = jacobiSym x n := jacobi_eq_jacobiSym x n h2 (by omega)
  have hl : jacobiSym (x : ℤ) n = legendreSym n (x : ℤ) :=
    (jacobiSym.legendreSym.to_jacobiSym n (x : ℤ)).symm
  have he2 : ((legendreSym n (x : ℤ) : ℤ) : ZMod n) =
      (((x : ℤ) ^ (n / 2) : ℤ) : ZMod n) := by
    have he := legendreSym.eq_pow n ((x : ℕ) : ℤ)
    push_cast at he
    push_cast
    exact he
  rw [ZMod.intCast_eq_intCast_iff'] at he2
  have hexp : (n - 1) / 2 = n / 2 := by omega
  rw [hj, hl, he2, hexp]
  push_cast
  ring

theorem jacobi_witness_prime (n : ℕ) (hp : n.Prime) (h2 : n % 2 = 1) (x : ℕ) :
    jacobi_witness x n = false := by
  show (if jacobi x n % (n : ℤ) = ((x ^ ((n - 1) / 2) % n : ℕ) : ℤ)
    then false else true) = false
  rw [if_pos (jacobi_prime_mod n hp h2 x)]

theorem rpt_prime (n : ℕ) (hp : n.Prime) (h2 : n % 2 = 1) (k : ℕ)
    (draw : ℕ → ℕ) : randomized_primality_testing n k draw = true := by
  rw [randomized_primality_testing, List.all_eq_true]
  intro t _
  rw [jacobi_witness_prime n hp h2 (draw t)]
  rfl

/-- C1: for every odd prime n ≥ 3 and every witness x in [1, n-1], the
Jacobi symbol reduced modulo n equals x^((n-1)/2) mod n (Euler's
criterion, which this binary implementation satisfies), so jacobi_witness
returns False; consequently randomized_primality_testing accepts every odd
prime for every trial count, whatever witnesses are drawn. -/
theorem solovay_strassen_accepts_primes (n : ℕ) (hp : n.Prime)
    (hodd : n % 2 = 1) (h3 : 3 ≤ n) :
    (∀ x, 1 ≤ x → x ≤ n - 1 →
      jacobi x n % (n : ℤ) = ((x ^ ((n - 1) / 2) % n : ℕ) : ℤ) ∧
      jacobi_witness x n = false) ∧
    (∀ k draw, randint_draws n draw →
      randomized_primality_testing n k draw = true) :=
  ⟨fun x _ _ => ⟨jacobi_prime_mod n hp hodd x, jacobi_witness_prime n hp hodd x⟩,
   fun k draw _ => rpt_prime n hp hodd k draw⟩

/-- C1 witness: the odd prime 5 with witness 2 (drawn in every trial). -/
theorem solovay_strassen_witness :
    (jacobi 2 5 % (5 : ℤ) = ((2 ^ ((5 - 1) / 2) % 5 : ℕ) : ℤ) ∧
      jacobi_witness 2 5 = false) ∧
    randomized_primality_testing 5 1 (fun _ => 2) = true := by
  have h := solovay_strassen_accepts_primes 5 (by norm_num) (by norm_num)
    (by norm_num)
  exact ⟨h.1 2 (by norm_num) (by norm_num),
    h.2 1 (fun _ => 2) (fun t => ⟨by norm_num, by norm_num⟩)⟩

end Rsa
